import Mathlib

/-!
# Verification of the `ecdsa` repository

A shallow embedding of the repository's ECDSA implementation
(`src/ecdsa.ts` generic form and the parallel class form) together with
proofs about it.

The repository delegates elliptic-curve point arithmetic and scalar-field
arithmetic to external packages (`@bradthomasbrown/finite-curve`,
`@bradthomasbrown/finite-domain`, `@bradthomasbrown/finite-field`).
Those collaborators are modelled here at the interface the specification
describes: curve points form an additive commutative group `P`; the
domain parameters carry the generator, the group order `n`, the base
field prime `p`, the cofactor `h`, coordinate accessors and the
solve-for-y operation; the scalar field operations are arithmetic mod
`n`.
-/

set_option linter.unusedSectionVars false
set_option linter.unusedVariables false

namespace Ecdsa

/-- Embedding of `compare(a, b)` (`src/ecdsa.ts` lines 10-16): walk the
indices of `a` from most significant (`a.byteLength - 1`) down to `0`,
returning `1`/`-1` at the first index where the bytes differ, `0`
otherwise.  An out-of-range read on `b` yields JavaScript `undefined`,
for which both `>` and `<` are false, so such indices are skipped; the
helper `cmpFrom a b i` performs the loop for indices `i-1, ..., 0`. -/
def cmpFrom (a b : List ℕ) : ℕ → Int
  | 0 => 0
  | i + 1 =>
    match a[i]?, b[i]? with
    | some x, some y =>
      if x > y then 1 else if x < y then -1 else cmpFrom a b i
    | _, _ => cmpFrom a b i

/-- `compare(a, b)` itself: run the loop from index `a.byteLength - 1`. -/
def compare (a b : List ℕ) : Int :=
  cmpFrom a b a.length

/-- Embedding of `bigintToUint8Array_LE(b, B)` (`src/ecdsa.ts` lines
24-33): a `B`-byte little-endian encoding of `b`.  The source fills a
zero array with the low bytes of `b` while `b > 0`; writes beyond index
`B - 1` are dropped by the typed array, so the result holds exactly the
`B` least-significant bytes. -/
def bigintToUint8Array_LE : ℕ → ℕ → List ℕ
  | _, 0 => []
  | b, B + 1 => b % 256 :: bigintToUint8Array_LE (b / 256) B

/-- Embedding of `uint8ArrayToBigint_LE(a, B)` (`src/ecdsa.ts` lines
61-66): decode the first `min(a.byteLength, B)` bytes of `a` as an
unsigned little-endian integer. -/
def uint8ArrayToBigint_LE : List ℕ → ℕ → ℕ
  | _, 0 => 0
  | [], _ + 1 => 0
  | x :: t, B + 1 => x + 256 * uint8ArrayToBigint_LE t B

/-- Helper for `byteLength`: structural recursion on a fuel argument
(the fuel never runs out because `m / 256 < m` for `m > 0`). -/
def byteLengthAux : ℕ → ℕ → ℕ
  | 0, _ => 0
  | _ + 1, 0 => 0
  | fuel + 1, m + 1 => byteLengthAux fuel ((m + 1) / 256) + 1

/-- Embedding of the `nByteLength` computation in `_6dcb8a_`
(`src/ecdsa.ts` line 93): the number of base-256 digits of `n`. -/
def byteLength (n : ℕ) : ℕ := byteLengthAux n n

/-- Modelled from the spec: the scalar-field addition `T.F.add` of the
external finite-field collaborator — addition mod the group order. -/
def Fadd (n a b : ℕ) : ℕ := (a + b) % n

/-- Modelled from the spec: the scalar-field multiplication
`T.F.multiply` — multiplication mod the group order. -/
def Fmul (n a b : ℕ) : ℕ := a * b % n

/-- Modelled from the spec: the scalar-field `T.F.reciprocal` — the
multiplicative inverse mod `n`, realized as the Fermat power
`a ^ (n - 2) mod n`, which agrees with the inverse whenever `n` is
prime (the group order of every domain-parameter set is prime). -/
def Freciprocal (n a : ℕ) : ℕ := a ^ (n - 2) % n

/-- Modelled from the spec: the scalar-field `T.F.inverse` — the
additive inverse mod `n`.  (The collaborator's `reciprocal` is the
multiplicative inverse; `inverse` is the additive one.  This is the
reading under which both of the repository's recovery algorithms
implement the relation `Q = r⁻¹·(s·R − e·G)` derived from the signing
equation.) -/
def Finverse (n a : ℕ) : ℕ := (n - a % n) % n

/-- Modelled from the spec: the scalar-field division `T.F.divide` —
multiplication by the modular multiplicative inverse. -/
def Fdiv (n a b : ℕ) : ℕ := Fmul n a (Freciprocal n b)

/-- Modelled from the spec: the reciprocal mod `n` of a signed scalar,
as used by the point division `T.divide` on a (possibly negative)
signature component: reduce into `[0, n)` first, then invert. -/
def FreciprocalInt (n : ℕ) (s : ℤ) : ℕ := Freciprocal n (s % (n : ℤ)).toNat

/-- Modelled from the spec: the domain parameters `T : FiniteDomain`
together with the curve interface the core consumes.  Curve points live
in an additive commutative group `P` whose zero is the point at
infinity (`isIdentity` in the source); `xcoord`/`ycoord` read the
affine coordinates of a non-identity point (`R.x`/`R.y`), and `solve`
models `T.E.solve` / `T.E.solve_p3mod4`: given an x-coordinate it
returns one of the (at most two) curve points with that coordinate.
The group-law facts the proofs need (the generator has order `n`,
`solve` really returns a point with the requested x up to sign, the
y-coordinates of `X` and `-X` are reflections mod `p`, ...) are stated
as hypotheses of the individual theorems. -/
structure FiniteDomain (P : Type) where
  n : ℕ
  p : ℕ
  h : ℕ
  G : P
  xcoord : P → ℕ
  ycoord : P → ℕ
  solve : ℕ → P

variable {P : Type} [AddCommGroup P] [DecidableEq P]

/-- Embedding of the body of the signing loop in `_6dcb8a_`
(`src/ecdsa.ts` lines 103-111, identically `Ecdsa.sign` in the class
form): given an accepted nonce `k`, compute `R = k·G`; retry (`none`)
if `R` is the identity (`R.x === undefined`), if `r = R.x mod n` is
zero, or if `s = (e + r·d) / k mod n` is zero; otherwise the loop
returns `{r, s}` together with the ephemeral point `R`. -/
def signStep (D : FiniteDomain P) (d e k : ℕ) : Option (ℕ × ℕ × P) :=
  let R := k • D.G
  if R = 0 then none
  else
    let r := D.xcoord R % D.n
    if r = 0 then none
    else
      let s := Fdiv D.n (Fadd D.n e (Fmul D.n r d)) k
      if s = 0 then none
      else some (r, s, R)

/-- Embedding of `Ecdsa.verify` (`src/ecdsa.ts` lines 216-226,
identically the static `Ecdsa.verify` of the class form).  The
signature components are arbitrary bigints, hence `ℤ`.  The point
division `this.T.divide(R, S.s, R)` is the scalar multiplication by the
reciprocal of `s` mod `n`. -/
def verify (D : FiniteDomain P) (Q : P) (r s : ℤ) (e : ℕ) : Bool :=
  if r = 0 ∨ r ≥ (D.n : ℤ) then false
  else if s = 0 ∨ s ≥ (D.n : ℤ) then false
  else
    let eG := e • D.G
    let rQ := r • Q
    let R := eG + rQ
    let R' := FreciprocalInt D.n s • R
    if R' = 0 then false
    else decide ((D.xcoord R' % D.n : ℤ) = r)

/-- Embedding of the low-s normalization step inside `_033399_`
(`src/ecdsa.ts` lines 80-83): if `s > n >> 1` replace `s` by `n - s`
and flip bit 0 of the discriminant `v`. -/
def lowSNorm (n s v : ℕ) : ℕ × ℕ :=
  if s > n >>> 1 then (n - s, v ^^^ 1) else (s, v)

/-- Embedding of `_033399_` (`src/ecdsa.ts` lines 76-85): build the
recoverable signature `{r, s, v}` from `r`, `s` and the ephemeral point
`R` (passed here through its coordinates `Rx = R.x`, `Ry = R.y`):
`v = (R.y & 1) | (R.x / n << 1)`, then low-s normalize. -/
def _033399_ (r s Rx Ry n : ℕ) : ℕ × ℕ × ℕ :=
  let v := (0 ||| (Ry &&& 1)) ||| ((Rx / n) <<< 1)
  let sv := lowSNorm n s v
  (r, sv.1, sv.2)

/-- Embedding of `_30ecde_` composed with the signing loop
(`src/ecdsa.ts` lines 87-89 and 91-114): sign in recoverable form,
post-processing an accepted draw with `_033399_`. -/
def signRecoverable (D : FiniteDomain P) (d e k : ℕ) : Option (ℕ × ℕ × ℕ) :=
  (signStep D d e k).map fun rsR =>
    _033399_ rsR.1 rsR.2.1 (D.xcoord rsR.2.2) (D.ycoord rsR.2.2) D.n

/-- Embedding of the generic recoverer `_2bfce0_` (`src/ecdsa.ts` lines
116-141, `Ecdsa.recover_p3mod4` in the class form): reduce the digest
mod `n`, set `eG = inverse(e)·G`, and for each `j ≤ h` solve the curve
at the base-field element `r + j·n`; when the solved point is killed by
`n`, yield `reciprocal(r)·(s·R + eG)` for the solved point and its
negation.  The generator's yields are collected into a list in order. -/
def recover_p3mod4 (D : FiniteDomain P) (r s e : ℕ) : List P :=
  let e' := e % D.n
  let inverseE := Finverse D.n e'
  let eG := inverseE • D.G
  let reciprocalR := Freciprocal D.n r
  (List.range (D.h + 1)).flatMap fun j =>
    let x := (r + j * D.n) % D.p
    let R := D.solve x
    if D.n • R = 0 then
      [reciprocalR • (s • R + eG), reciprocalR • (s • (-R) + eG)]
    else []

/-- Embedding of the fast recoverer `_560c92_` (`src/ecdsa.ts` lines
143-158): rebuild `R.x = r + (v >> 1)·n`, solve for the point, flip it
if the solved y-parity disagrees with bit 0 of `v`, then return
`u1·G + u2·R` with `u1 = inverse(e mod n)·reciprocal(R.x)` and
`u2 = s·reciprocal(R.x)`. -/
def recoverFast (D : FiniteDomain P) (r s v e : ℕ) : P :=
  let Rx := r + (v >>> 1) * D.n
  let R0 := D.solve Rx
  let R := if (v &&& 1) ^^^ (D.ycoord R0 &&& 1) ≠ 0 then -R0 else R0
  let ir := Freciprocal D.n Rx
  let h := e % D.n
  let u1 := Fmul D.n (Finverse D.n h) ir
  let u2 := Fmul D.n s ir
  u1 • D.G + u2 • R

/-- Embedding of the nonce rejection condition of the generic form
(`src/ecdsa.ts` lines 100-101): a drawn byte array `K` is accepted by
the `do`/`while` exactly when neither `compare(K, N) >= 0` nor
`compare(K, zero) == 0`, where `N` is the `nByteLength`-byte
little-endian encoding of `n` and `zero` is all zeroes. -/
def nonceAccepted (n : ℕ) (K : List ℕ) : Bool :=
  let L := byteLength n
  let N := bigintToUint8Array_LE n L
  let zero := List.replicate L 0
  !(decide (compare K N ≥ 0) || decide (compare K zero = 0))

/-- Embedding of the nonce rejection condition of the class form
(`src/unnamed/part_001` lines 152-153), which uses the byte length
`hashlen` and rejects only when `compare(K, N) == 1` or
`compare(K, zero) == 0`. -/
def nonceAcceptedClass (n hashlen : ℕ) (K : List ℕ) : Bool :=
  let N := bigintToUint8Array_LE n hashlen
  let zero := List.replicate hashlen 0
  !(decide (compare K N = 1) || decide (compare K zero = 0))

/-- A concrete toy instantiation of the modelled curve interface, used
to witness the theorems: the cyclic group `ZMod 5` standing for the
order-5 subgroup generated by `G`, with coordinate tables over the base
field `GF(7)` in which the points `X` and `-X` share an x-coordinate
and have reflected y-coordinates. -/
def toyD : FiniteDomain (ZMod 5) where
  n := 5
  p := 7
  h := 1
  G := 1
  xcoord := fun S => [0, 1, 2, 2, 1].getD S.val 0
  ycoord := fun S => [0, 1, 3, 4, 6].getD S.val 0
  solve := fun x => if x = 1 then 1 else if x = 2 then 2 else 0

/-! ### Helper lemmas: scalar-field values seen inside `ZMod n` -/

lemma castMod (n a : ℕ) : ((a % n : ℕ) : ZMod n) = (a : ZMod n) := by
  rw [ZMod.natCast_eq_natCast_iff']
  exact Nat.mod_mod_of_dvd a dvd_rfl

lemma cast_Fadd (n a b : ℕ) : ((Fadd n a b : ℕ) : ZMod n) = (a : ZMod n) + b := by
  unfold Fadd
  rw [castMod]
  push_cast
  ring

lemma cast_Fmul (n a b : ℕ) : ((Fmul n a b : ℕ) : ZMod n) = (a : ZMod n) * b := by
  unfold Fmul
  rw [castMod]
  push_cast
  ring

lemma cast_Finverse {n : ℕ} (hn : n ≠ 0) (a : ℕ) :
    ((Finverse n a : ℕ) : ZMod n) = -(a : ZMod n) := by
  unfold Finverse
  rw [castMod, Nat.cast_sub (le_of_lt (Nat.mod_lt _ (Nat.pos_of_ne_zero hn))),
    ZMod.natCast_self, castMod, zero_sub]

lemma pow_sub_two_eq_inv {n : ℕ} (hp : n.Prime) {a : ZMod n} (ha : a ≠ 0) :
    a ^ (n - 2) = a⁻¹ := by
  haveI := Fact.mk hp
  have h1 : a ^ (n - 2) * a = 1 := by
    rw [← pow_succ, show n - 2 + 1 = n - 1 by have := hp.two_le; omega,
      ZMod.pow_card_sub_one_eq_one ha]
  exact (inv_eq_of_mul_eq_one_right (by rwa [mul_comm])).symm

lemma cast_Freciprocal {n : ℕ} (hp : n.Prime) (a : ℕ) (ha : (a : ZMod n) ≠ 0) :
    ((Freciprocal n a : ℕ) : ZMod n) = (a : ZMod n)⁻¹ := by
  unfold Freciprocal
  rw [castMod]
  push_cast
  exact pow_sub_two_eq_inv hp ha

lemma cast_FreciprocalInt {n : ℕ} (hp : n.Prime) (s : ℤ) (hs : ((s : ZMod n)) ≠ 0) :
    ((FreciprocalInt n s : ℕ) : ZMod n) = ((s : ZMod n))⁻¹ := by
  unfold FreciprocalInt
  have hn0 : (0 : ℤ) < (n : ℤ) := by exact_mod_cast hp.pos
  have hnn : (0 : ℤ) ≤ s % (n : ℤ) := Int.emod_nonneg s (by omega)
  have hcast : (((s % (n : ℤ)).toNat : ℕ) : ZMod n) = ((s : ZMod n)) := by
    have h1 : (((s % (n : ℤ)).toNat : ℤ) : ZMod n) = ((s % (n : ℤ) : ℤ) : ZMod n) := by
      rw [Int.toNat_of_nonneg hnn]
    rw [← Int.cast_natCast, h1, ZMod.intCast_mod]
  rw [cast_Freciprocal hp _ (by rw [hcast]; exact hs), hcast]

lemma natCast_ne_zero_of {n a : ℕ} (h0 : a ≠ 0) (hlt : a < n) : (a : ZMod n) ≠ 0 := by
  rw [Ne, ZMod.natCast_zmod_eq_zero_iff_dvd]
  intro hdvd
  exact absurd (Nat.le_of_dvd (Nat.pos_of_ne_zero h0) hdvd) (by omega)

/-! ### Helper lemmas: scalar multiples of points killed by `n` -/

lemma nsmul_mod {n : ℕ} (X : P) (hX : n • X = 0) (a : ℕ) : a • X = (a % n) • X := by
  conv_lhs => rw [← Nat.div_add_mod a n]
  rw [add_nsmul, mul_nsmul, hX, smul_zero, zero_add]

lemma nsmul_congr {n : ℕ} (X : P) (hX : n • X = 0) {a b : ℕ}
    (h : (a : ZMod n) = (b : ZMod n)) : a • X = b • X := by
  rw [nsmul_mod X hX a, nsmul_mod X hX b, (ZMod.natCast_eq_natCast_iff' a b n).mp h]

lemma zsmul_congr {n : ℕ} (X : P) (hX : n • X = 0) {a b : ℤ}
    (h : (a : ZMod n) = (b : ZMod n)) : a • X = b • X := by
  have hd : ((a - b : ℤ) : ZMod n) = 0 := by push_cast [h]; ring
  obtain ⟨t, ht⟩ := (ZMod.intCast_zmod_eq_zero_iff_dvd _ _).mp hd
  have h2 : a • X - b • X = (a - b) • X := by
    rw [sub_zsmul, sub_eq_add_neg]
  have h3 : (a - b) • X = 0 := by
    rw [ht, mul_zsmul', natCast_zsmul, hX, smul_zero]
  have h4 : a • X - b • X = 0 := h2.trans h3
  exact sub_eq_zero.mp h4

lemma order_dvd {n : ℕ} (hn : 0 < n) {G : P} (hG : n • G = 0)
    (hGord : ∀ m : ℕ, 0 < m → m < n → m • G ≠ 0) {m : ℕ} (hm : m • G = 0) : n ∣ m := by
  have h1 : (m % n) • G = 0 := by rw [← nsmul_mod G hG]; exact hm
  rcases Nat.eq_zero_or_pos (m % n) with h | h
  · exact Nat.dvd_of_mod_eq_zero h
  · exact absurd h1 (hGord _ h (Nat.mod_lt _ hn))

/-! ### Helper lemmas: the discriminant bit operations -/

lemma lor_shiftLeft_one {a : ℕ} (b : ℕ) (ha : a ≤ 1) : a ||| (b <<< 1) = 2 * b + a := by
  apply Nat.eq_of_testBit_eq
  intro i
  rw [Nat.testBit_lor, Nat.shiftLeft_eq]
  cases i with
  | zero =>
    simp only [Nat.testBit_zero]
    have h1 : b * 2 ^ 1 % 2 = 0 := by omega
    have h2 : (2 * b + a) % 2 = a % 2 := by omega
    rw [h1, h2]
    simp
  | succ i =>
    simp only [Nat.testBit_succ]
    have h1 : a / 2 = 0 := by omega
    have h2 : b * 2 ^ 1 / 2 = b := by omega
    have h3 : (2 * b + a) / 2 = b := by omega
    rw [h1, h2, h3, Nat.zero_testBit, Bool.false_or]

lemma xor_one_of_le {a : ℕ} (b : ℕ) (ha : a ≤ 1) : (2 * b + a) ^^^ 1 = 2 * b + (1 - a) := by
  apply Nat.eq_of_testBit_eq
  intro i
  rw [Nat.testBit_xor]
  cases i with
  | zero =>
    simp only [Nat.testBit_zero]
    have h2 : (2 * b + a) % 2 = a % 2 := by omega
    have h3 : (2 * b + (1 - a)) % 2 = (1 - a) % 2 := by omega
    rw [h2, h3]
    interval_cases a <;> decide
  | succ i =>
    simp only [Nat.testBit_succ]
    have h1 : (1 : ℕ) / 2 = 0 := by omega
    have h2 : (2 * b + a) / 2 = b := by omega
    have h3 : (2 * b + (1 - a)) / 2 = b := by omega
    rw [h1, h2, h3, Nat.zero_testBit, Bool.xor_false]

lemma shiftRight_one_of_le {a : ℕ} (b : ℕ) (ha : a ≤ 1) : (2 * b + a) >>> 1 = b := by
  rw [Nat.shiftRight_one]
  omega

lemma and_one_of_le {a : ℕ} (b : ℕ) (ha : a ≤ 1) : (2 * b + a) &&& 1 = a := by
  rw [Nat.and_one_is_mod]
  omega

/-! ### Helper lemma: inverting an accepted draw of the signing loop -/

lemma signStep_eq {D : FiniteDomain P} {d e k r s : ℕ} {R : P}
    (h : signStep D d e k = some (r, s, R)) :
    R = k • D.G ∧ R ≠ 0 ∧ r = D.xcoord R % D.n ∧ r ≠ 0 ∧
      s = Fdiv D.n (Fadd D.n e (Fmul D.n r d)) k ∧ s ≠ 0 := by
  unfold signStep at h
  by_cases h1 : k • D.G = 0
  · simp [h1] at h
  · by_cases h2 : D.xcoord (k • D.G) % D.n = 0
    · simp [h1, h2] at h
    · by_cases h3 : Fdiv D.n (Fadd D.n e (Fmul D.n (D.xcoord (k • D.G) % D.n) d)) k = 0
      · simp [h1, h2, h3] at h
      · simp [h1, h2, h3] at h
        obtain ⟨hr, hs, hR⟩ := h
        subst hR
        refine ⟨rfl, h1, hr.symm, by omega, ?_, by omega⟩
        rw [← hr]
        exact hs.symm

/-- The low-s normalization never outputs an `s` above `n / 2` when fed
an `s` below `n`. -/
lemma lowSNorm_fst_le {n s : ℕ} (v : ℕ) (hs : s < n) : 2 * (lowSNorm n s v).1 ≤ n := by
  unfold lowSNorm
  rw [Nat.shiftRight_one]
  split_ifs with h
  · show 2 * (n - s) ≤ n
    omega
  · show 2 * s ≤ n
    omega

/-- The `s` component of an accepted draw is a remainder mod `n`, hence
below `n` (and similarly for `r`). -/
lemma signStep_lt {D : FiniteDomain P} (hn : 0 < D.n) {d e k r s : ℕ} {R : P}
    (h : signStep D d e k = some (r, s, R)) : r < D.n ∧ s < D.n := by
  obtain ⟨-, -, hr, -, hs, -⟩ := signStep_eq h
  constructor
  · rw [hr]
    exact Nat.mod_lt _ hn
  · rw [hs]
    unfold Fdiv Fmul
    exact Nat.mod_lt _ hn

/-- C10: for every byte length `B` and every `b < 2^(8·B)`, decoding the
little-endian encoding round-trips:
`uint8ArrayToBigint_LE (bigintToUint8Array_LE b B) B = b`. -/
theorem C10_le_encoding_roundtrip (b B : ℕ) (h : b < 2 ^ (8 * B)) :
    uint8ArrayToBigint_LE (bigintToUint8Array_LE b B) B = b := by
  induction B generalizing b with
  | zero =>
    simp only [bigintToUint8Array_LE, uint8ArrayToBigint_LE]
    omega
  | succ B ih =>
    have hpow : (2 : ℕ) ^ (8 * (B + 1)) = 2 ^ (8 * B) * 256 := by
      rw [show 8 * (B + 1) = 8 * B + 8 by ring, pow_add]
      norm_num
    have hb : b / 256 < 2 ^ (8 * B) := by
      rw [Nat.div_lt_iff_lt_mul (by norm_num)]
      omega
    simp only [bigintToUint8Array_LE, uint8ArrayToBigint_LE, ih _ hb]
    omega

/-- Witness for C10 at the concrete input `b = 300`, `B = 2`. -/
theorem C10_witness :
    300 < 2 ^ (8 * 2) ∧
      uint8ArrayToBigint_LE (bigintToUint8Array_LE 300 2) 2 = 300 :=
  ⟨by decide, C10_le_encoding_roundtrip 300 2 (by decide)⟩

/-- C8: every signature emitted by the signing loop in base form has
`0 < r < n` and `0 < s < n`; degenerate draws are retried, never
emitted. -/
theorem C8_base_signature_in_range (D : FiniteDomain P) (hn : 0 < D.n)
    {d e k r s : ℕ} {R : P} (h : signStep D d e k = some (r, s, R)) :
    0 < r ∧ r < D.n ∧ 0 < s ∧ s < D.n := by
  obtain ⟨-, -, -, hr0, -, hs0⟩ := signStep_eq h
  obtain ⟨h1, h2⟩ := signStep_lt hn h
  exact ⟨Nat.pos_of_ne_zero hr0, h1, Nat.pos_of_ne_zero hs0, h2⟩

/-- Witness for C8 at the toy domain with `d = 2`, `e = 4`, `k = 3`. -/
theorem C8_witness :
    signStep toyD 2 4 3 = some (2, 1, (3 : ZMod 5)) ∧
      (0 < 2 ∧ 2 < toyD.n ∧ 0 < 1 ∧ 1 < toyD.n) := by
  have hst : signStep toyD 2 4 3 = some (2, 1, (3 : ZMod 5)) := by decide
  exact ⟨hst, C8_base_signature_in_range toyD (by decide) hst⟩

/-- C7: the recoverable-form normalization replaces `s` with `n - s` and
flips discriminant bit 0 exactly when `s > n/2`; its output `s` always
satisfies `s ≤ n/2` (so every recoverable signature the signer emits
does too), and re-normalizing an already-normalized pair changes
nothing. -/
theorem C7_low_s_normalization (n s v : ℕ) (hs : s < n) :
    (n >>> 1 < s → lowSNorm n s v = (n - s, v ^^^ 1)) ∧
    (s ≤ n >>> 1 → lowSNorm n s v = (s, v)) ∧
    2 * (lowSNorm n s v).1 ≤ n ∧
    lowSNorm n (lowSNorm n s v).1 (lowSNorm n s v).2 = lowSNorm n s v ∧
    (∀ (D : FiniteDomain P) (d e k r' s' v' : ℕ), 0 < D.n →
      signRecoverable D d e k = some (r', s', v') → 2 * s' ≤ D.n) := by
  have hhalf : n >>> 1 = n / 2 := Nat.shiftRight_one n
  refine ⟨?_, ?_, lowSNorm_fst_le v hs, ?_, ?_⟩
  · intro h
    unfold lowSNorm
    rw [if_pos h]
  · intro h
    unfold lowSNorm
    rw [if_neg (by omega)]
  · by_cases h : n >>> 1 < s
    · unfold lowSNorm
      rw [if_pos h, if_neg (by rw [hhalf] at h ⊢; omega)]
    · unfold lowSNorm
      rw [if_neg h, if_neg h]
  · intro D d e k r' s' v' hn hsig
    unfold signRecoverable at hsig
    cases hstep : signStep D d e k with
    | none =>
      rw [hstep] at hsig
      simp at hsig
    | some rsR =>
      obtain ⟨r0, s0, R0⟩ := rsR
      rw [hstep] at hsig
      simp only [Option.map_some', Option.some.injEq] at hsig
      have hs0lt : s0 < D.n := (signStep_lt hn hstep).2
      unfold _033399_ at hsig
      simp only [Prod.mk.injEq] at hsig
      obtain ⟨-, hs', -⟩ := hsig
      rw [← hs']
      exact lowSNorm_fst_le _ hs0lt

/-- Witness for C7 at `n = 5`, `s = 4`, `v = 0` (the flipping case). -/
theorem C7_witness :
    (4 < 5) ∧
      ((5 >>> 1 < 4 → lowSNorm 5 4 0 = (5 - 4, 0 ^^^ 1)) ∧
      (4 ≤ 5 >>> 1 → lowSNorm 5 4 0 = (4, 0)) ∧
      2 * (lowSNorm 5 4 0).1 ≤ 5 ∧
      lowSNorm 5 (lowSNorm 5 4 0).1 (lowSNorm 5 4 0).2 = lowSNorm 5 4 0 ∧
      (∀ (D : FiniteDomain (ZMod 5)) (d e k r' s' v' : ℕ), 0 < D.n →
        signRecoverable D d e k = some (r', s', v') → 2 * s' ≤ D.n)) :=
  ⟨by decide, C7_low_s_normalization 5 4 0 (by decide)⟩

/-- C6: the class-form rejection loop (`src/unnamed/part_001` lines
152-153) accepts the draw `K = [5]` for `n = 5` (`hashlen 1`), whose
decoded value equals `n`, while the generic-form loop
(`src/ecdsa.ts` lines 100-101) rejects the same draw: the `== 1`
comparison fails to reject a candidate exactly equal to `n`. -/
theorem C6_class_loop_accepts_n :
    nonceAcceptedClass 5 1 [5] = true ∧ nonceAccepted 5 [5] = false ∧
      uint8ArrayToBigint_LE [5] 1 = 5 := by decide

/-- C5 (amended): `verify` returns `false` whenever `r ≤ 0`, `r ≥ n`,
`s = 0` or `s ≥ n`.  (A negative `s` is not always rejected — see the
counterexample — because the guard tests `s == 0`, not `s ≤ 0`.) -/
theorem C5_range_rejection (D : FiniteDomain P) (Q : P) (r s : ℤ) (e : ℕ)
    (h : r ≤ 0 ∨ (D.n : ℤ) ≤ r ∨ s = 0 ∨ (D.n : ℤ) ≤ s) :
    verify D Q r s e = false := by
  simp only [verify]
  split_ifs with h1 h2 h3
  · rfl
  · rfl
  · rfl
  · push_neg at h1 h2
    have hr : r < 0 := by
      rcases h with h | h | h | h
      · omega
      · omega
      · omega
      · omega
    simp only [decide_eq_false_iff_not]
    intro heq
    have hge : (0 : ℤ) ≤ ((D.xcoord (FreciprocalInt D.n s •
        (e • D.G + r • Q)) % D.n : ℕ) : ℤ) := Int.natCast_nonneg _
    omega

/-- Witness for the amended C5 at `r = 0`. -/
theorem C5_range_rejection_witness :
    ((0 : ℤ) ≤ 0 ∨ ((5 : ℕ) : ℤ) ≤ 0 ∨ (1 : ℤ) = 0 ∨ ((5 : ℕ) : ℤ) ≤ 1) ∧
      verify toyD (0 : ZMod 5) 0 1 0 = false :=
  ⟨Or.inl le_rfl, C5_range_rejection toyD 0 0 1 0 (Or.inl le_rfl)⟩

/-- Counterexample to C5 as stated: the negative component `s = -4`
(which is `≤ 0`, so the claim demands rejection) verifies as `true`
against the toy domain, because `-4 ≡ 1 (mod 5)` matches a valid
signature and the guard only tests `s == 0` and `s ≥ n`. -/
theorem C5_counterexample :
    (-4 : ℤ) ≤ 0 ∧ verify toyD (2 : ZMod 5) 2 (-4) 4 = true := by decide

/-- C9: for in-range `r` and `s`, `verify` accepts exactly when the
point `R' = reciprocal(s)·(e·G + r·Q)` is not the identity and its
x-coordinate reduced mod `n` equals `r`. -/
theorem C9_verify_algebra (D : FiniteDomain P) (Q : P) (e : ℕ) {r s : ℕ}
    (hr0 : 0 < r) (hrn : r < D.n) (hs0 : 0 < s) (hsn : s < D.n) :
    (verify D Q (r : ℤ) (s : ℤ) e = true ↔
      (Freciprocal D.n s • (e • D.G + r • Q) ≠ 0 ∧
        D.xcoord (Freciprocal D.n s • (e • D.G + r • Q)) % D.n = r)) := by
  have hfi : FreciprocalInt D.n (s : ℤ) = Freciprocal D.n s := by
    unfold FreciprocalInt
    congr 1
    rw [Int.emod_eq_of_lt (by positivity) (by exact_mod_cast hsn)]
    exact Int.toNat_natCast s
  simp only [verify]
  rw [if_neg (by omega), if_neg (by omega), hfi, natCast_zsmul]
  split_ifs with h0
  · simp [h0]
  · simp only [decide_eq_true_eq]
    constructor
    · intro hh
      exact ⟨h0, by exact_mod_cast hh⟩
    · rintro ⟨-, hh⟩
      exact_mod_cast hh

/-- Witness for C9 at the toy domain: `Q = 2·G`, `r = 2`, `s = 1`,
`e = 4` (an accepting instance). -/
theorem C9_witness :
    (0 < 2 ∧ 2 < toyD.n ∧ 0 < 1 ∧ 1 < toyD.n) ∧
      (verify toyD (2 : ZMod 5) ((2 : ℕ) : ℤ) ((1 : ℕ) : ℤ) 4 = true ↔
        (Freciprocal toyD.n 1 • (4 • toyD.G + 2 • (2 : ZMod 5)) ≠ 0 ∧
          toyD.xcoord (Freciprocal toyD.n 1 • (4 • toyD.G + 2 • (2 : ZMod 5))) % toyD.n = 2)) :=
  ⟨by decide, C9_verify_algebra toyD 2 4 (by decide) (by decide) (by decide) (by decide)⟩

/-- The `s` of an accepted draw, read in `ZMod n`: `s = (e + r·d)·k⁻¹`. -/
lemma signStep_s_cast {D : FiniteDomain P} (hprime : D.n.Prime)
    {d e k r s : ℕ} {R : P} (hsign : signStep D d e k = some (r, s, R))
    (hkz : (k : ZMod D.n) ≠ 0) :
    (s : ZMod D.n) = ((e : ZMod D.n) + (r : ZMod D.n) * (d : ZMod D.n)) * (k : ZMod D.n)⁻¹ := by
  obtain ⟨-, -, -, -, hs, -⟩ := signStep_eq hsign
  rw [hs]
  unfold Fdiv
  rw [cast_Fmul, cast_Fadd, cast_Fmul, cast_Freciprocal hprime _ hkz]

/-- C1: a base-form signature produced by an accepted draw of the
signing loop verifies against the public point `d·G` and the same
digest. -/
theorem C1_sign_verify_roundtrip (D : FiniteDomain P) (hprime : D.n.Prime)
    (hG : D.n • D.G = 0) (hGord : ∀ m : ℕ, 0 < m → m < D.n → m • D.G ≠ 0)
    {d e k r s : ℕ} {R : P} (hd0 : 0 < d) (hdn : d < D.n)
    (hk0 : 1 ≤ k) (hkn : k < D.n)
    (hsign : signStep D d e k = some (r, s, R)) :
    verify D (d • D.G) (r : ℤ) (s : ℤ) e = true := by
  obtain ⟨hR, hR0, hr, hr0, hs, hs0⟩ := signStep_eq hsign
  haveI := Fact.mk hprime
  have hn0 : 0 < D.n := hprime.pos
  obtain ⟨hrn, hsn⟩ := signStep_lt hn0 hsign
  have hkz : (k : ZMod D.n) ≠ 0 := natCast_ne_zero_of (by omega) hkn
  have hrz : (r : ZMod D.n) ≠ 0 := natCast_ne_zero_of hr0 hrn
  have hsz : (s : ZMod D.n) ≠ 0 := natCast_ne_zero_of hs0 hsn
  have hscast := signStep_s_cast hprime hsign hkz
  have herd : (e : ZMod D.n) + (r : ZMod D.n) * (d : ZMod D.n) ≠ 0 := by
    intro h0
    apply hsz
    rw [hscast, h0, zero_mul]
  have hkey : FreciprocalInt D.n (s : ℤ) • (e • D.G + (r : ℤ) • (d • D.G)) = k • D.G := by
    rw [natCast_zsmul]
    have h1 : e • D.G + r • (d • D.G) = (e + d * r) • D.G := by
      rw [add_nsmul, mul_nsmul]
    rw [h1, (mul_nsmul D.G (e + d * r) (FreciprocalInt D.n (s : ℤ))).symm]
    apply nsmul_congr D.G hG
    have hsInt : (((s : ℕ) : ℤ) : ZMod D.n) = (s : ZMod D.n) := by push_cast; rfl
    push_cast
    rw [cast_FreciprocalInt hprime _ (by rw [hsInt]; exact hsz), hsInt, hscast]
    have hA : (e : ZMod D.n) + (d : ZMod D.n) * (r : ZMod D.n) =
        (e : ZMod D.n) + (r : ZMod D.n) * (d : ZMod D.n) := by ring
    rw [hA, mul_inv, inv_inv, ← mul_assoc, mul_inv_cancel₀ herd, one_mul]
  simp only [verify]
  rw [if_neg (by omega), if_neg (by omega), hkey,
    if_neg (hGord k (by omega) hkn)]
  subst hR
  simp only [decide_eq_true_eq]
  exact_mod_cast hr.symm

/-- Witness for C1 at the toy domain: `d = 2`, `e = 4`, `k = 3`. -/
theorem C1_witness :
    signStep toyD 2 4 3 = some (2, 1, (3 : ZMod 5)) ∧
      verify toyD ((2 : ℕ) • toyD.G) ((2 : ℕ) : ℤ) ((1 : ℕ) : ℤ) 4 = true := by
  have hst : signStep toyD 2 4 3 = some (2, 1, (3 : ZMod 5)) := by decide
  refine ⟨hst, C1_sign_verify_roundtrip toyD (by show Nat.Prime 5; norm_num) (by decide) ?_
    (by decide) (by decide) (by decide) (by decide) hst⟩
  intro m h1 h2
  have h2' : m < 5 := h2
  interval_cases m <;> decide

/-- The candidate the generic recoverer computes from the true ephemeral
point equals the public point: `reciprocal(r)·(s·R + inverse(e)·G) = d·G`. -/
lemma recover_candidate_eq (D : FiniteDomain P) (hprime : D.n.Prime)
    (hG : D.n • D.G = 0) {d e k r s : ℕ} {R : P} (hR : R = k • D.G)
    (hkz : (k : ZMod D.n) ≠ 0) (hrz : (r : ZMod D.n) ≠ 0)
    (hscast : (s : ZMod D.n) =
      ((e : ZMod D.n) + (r : ZMod D.n) * (d : ZMod D.n)) * (k : ZMod D.n)⁻¹) :
    Freciprocal D.n r • (s • R + Finverse D.n (e % D.n) • D.G) = d • D.G := by
  subst hR
  haveI := Fact.mk hprime
  rw [(mul_nsmul D.G k s).symm, ← add_nsmul, ← mul_nsmul]
  apply nsmul_congr D.G hG
  push_cast
  rw [cast_Freciprocal hprime _ hrz, cast_Finverse hprime.ne_zero, castMod, hscast]
  have hk1 : (k : ZMod D.n) *
      ((((e : ZMod D.n) + (r : ZMod D.n) * (d : ZMod D.n))) * (k : ZMod D.n)⁻¹) =
      (e : ZMod D.n) + (r : ZMod D.n) * (d : ZMod D.n) := by
    rw [mul_comm _ ((k : ZMod D.n)⁻¹), ← mul_assoc, mul_inv_cancel₀ hkz, one_mul]
  rw [hk1]
  have h2 : ((e : ZMod D.n) + (r : ZMod D.n) * (d : ZMod D.n)) + -(e : ZMod D.n) =
      (r : ZMod D.n) * (d : ZMod D.n) := by ring
  rw [h2, mul_comm ((r : ZMod D.n)) ((d : ZMod D.n)), mul_assoc,
    mul_inv_cancel₀ hrz, mul_one]

/-- Scalar-multiplying by the additive inverse mod `n` negates the
point, for points killed by `n`. -/
lemma finverse_nsmul {n : ℕ} (hn0 : n ≠ 0) {G : P} (hG : n • G = 0) (m : ℕ) :
    Finverse n (m % n) • G = -(m • G) := by
  have h1 : Finverse n (m % n) • G + m • G = 0 := by
    rw [← add_nsmul]
    have h2 : ((Finverse n (m % n) + m : ℕ) : ZMod n) = ((0 : ℕ) : ZMod n) := by
      push_cast
      rw [cast_Finverse hn0, castMod]
      ring
    rw [nsmul_congr G hG h2, zero_nsmul]
  exact eq_neg_of_add_eq_zero_left h1

/-- For bits, xor is nonzero exactly on distinct arguments. -/
lemma xor_ne_zero_iff {x y : ℕ} (hx : x ≤ 1) (hy : y ≤ 1) : x ^^^ y ≠ 0 ↔ x ≠ y := by
  interval_cases x <;> interval_cases y <;> decide

/-- C4: the generic recoverer's yields are exactly, for each accepted
candidate point `R`, the pair `r⁻¹·(s·R − e·G)` and `r⁻¹·(s·(−R) − e·G)`
computed with scalar-field arithmetic on the digest `e`. -/
theorem C4_generic_recovery_formula (D : FiniteDomain P) (hn0 : D.n ≠ 0)
    (hG : D.n • D.G = 0) (r s e : ℕ) :
    recover_p3mod4 D r s e =
      (List.range (D.h + 1)).flatMap fun j =>
        let R := D.solve ((r + j * D.n) % D.p)
        if D.n • R = 0 then
          [Freciprocal D.n r • (s • R - e • D.G),
           Freciprocal D.n r • (s • (-R) - e • D.G)]
        else [] := by
  have hInv : Finverse D.n (e % D.n) • D.G = -(e • D.G) := by
    have h1 : Finverse D.n (e % D.n) • D.G + e • D.G = 0 := by
      rw [← add_nsmul]
      have h2 : ((Finverse D.n (e % D.n) + e : ℕ) : ZMod D.n) = ((0 : ℕ) : ZMod D.n) := by
        push_cast
        rw [cast_Finverse hn0, castMod]
        ring
      rw [nsmul_congr D.G hG h2, zero_nsmul]
    exact eq_neg_of_add_eq_zero_left h1
  simp only [recover_p3mod4]
  congr 1
  funext j
  rw [hInv, ← sub_eq_add_neg, ← sub_eq_add_neg]

/-- Witness for C4 at the toy domain, `r = 2`, `s = 1`, `e = 4`. -/
theorem C4_witness :
    recover_p3mod4 toyD 2 1 4 =
      (List.range (toyD.h + 1)).flatMap (fun j =>
        let R := toyD.solve ((2 + j * toyD.n) % toyD.p)
        if toyD.n • R = 0 then
          [Freciprocal toyD.n 2 • (1 • R - 4 • toyD.G),
           Freciprocal toyD.n 2 • (1 • (-R) - 4 • toyD.G)]
        else []) :=
  C4_generic_recovery_formula toyD (by decide) (by decide) 2 1 4

/-- C2: the public point `d·G` appears among the candidates yielded by
the generic recoverer on a signature produced by the signing loop. -/
theorem C2_generic_recovery_completeness (D : FiniteDomain P)
    (hprime : D.n.Prime) (hG : D.n • D.G = 0) (hp34 : D.p % 4 = 3)
    (hxlt : ∀ X : P, X ≠ 0 → D.xcoord X < D.p)
    (hsolve : ∀ X : P, X ≠ 0 → D.solve (D.xcoord X) = X ∨ D.solve (D.xcoord X) = -X)
    (hpn : D.p ≤ (D.h + 1) * D.n)
    {d e k r s : ℕ} {R : P} (hk0 : 1 ≤ k) (hkn : k < D.n)
    (hsign : signStep D d e k = some (r, s, R)) :
    d • D.G ∈ recover_p3mod4 D r s e := by
  obtain ⟨hR, hR0, hr, hr0, hs, hs0⟩ := signStep_eq hsign
  haveI := Fact.mk hprime
  have hn0 : 0 < D.n := hprime.pos
  obtain ⟨hrn, hsn⟩ := signStep_lt hn0 hsign
  have hkz : (k : ZMod D.n) ≠ 0 := natCast_ne_zero_of (by omega) hkn
  have hrz : (r : ZMod D.n) ≠ 0 := natCast_ne_zero_of hr0 hrn
  have hscast := signStep_s_cast hprime hsign hkz
  have hxp : D.xcoord R < D.p := hxlt R hR0
  have hj : D.xcoord R / D.n < D.h + 1 := by
    rw [Nat.div_lt_iff_lt_mul hn0]
    omega
  have hxsum : r + (D.xcoord R / D.n) * D.n = D.xcoord R := by
    rw [hr]
    exact Nat.mod_add_div' (D.xcoord R) D.n
  have hnR : D.n • R = 0 := by
    rw [hR]
    calc D.n • (k • D.G) = (k * D.n) • D.G := (mul_nsmul D.G k D.n).symm
    _ = (D.n * k) • D.G := by rw [mul_comm]
    _ = k • (D.n • D.G) := mul_nsmul D.G D.n k
    _ = 0 := by rw [hG, smul_zero]
  simp only [recover_p3mod4]
  rw [List.mem_flatMap]
  refine ⟨D.xcoord R / D.n, List.mem_range.mpr hj, ?_⟩
  rw [hxsum, Nat.mod_eq_of_lt hxp]
  rcases hsolve R hR0 with hcase | hcase
  · rw [hcase, if_pos hnR,
      recover_candidate_eq D hprime hG hR hkz hrz hscast]
    exact List.mem_cons_self _ _
  · rw [hcase, if_pos (by rw [smul_neg, hnR, neg_zero])]
    have h2 : Freciprocal D.n r • (s • (- -R) + Finverse D.n (e % D.n) • D.G) = d • D.G := by
      rw [neg_neg]
      exact recover_candidate_eq D hprime hG hR hkz hrz hscast
    rw [h2]
    exact List.mem_cons_of_mem _ (List.mem_cons_self _ _)

/-- Witness for C2 at the toy domain: `d = 2`, `e = 4`, `k = 3`. -/
theorem C2_witness :
    signStep toyD 2 4 3 = some (2, 1, (3 : ZMod 5)) ∧
      (2 : ℕ) • toyD.G ∈ recover_p3mod4 toyD 2 1 4 := by
  have hst : signStep toyD 2 4 3 = some (2, 1, (3 : ZMod 5)) := by decide
  exact ⟨hst, C2_generic_recovery_completeness toyD (by show Nat.Prime 5; norm_num) (by decide)
    (by decide) (by decide) (by decide) (by decide) (by decide) (by decide) hst⟩

/-- C3: the fast recoverer, applied to a recoverable signature produced
by the signer and the same digest, returns exactly the public point
`d·G` (not merely a point equal up to sign). -/
theorem C3_fast_recovery_exact (D : FiniteDomain P) (hprime : D.n.Prime)
    (hn2 : 2 < D.n) (hG : D.n • D.G = 0)
    (hGord : ∀ m : ℕ, 0 < m → m < D.n → m • D.G ≠ 0)
    (hsolve : ∀ X : P, X ≠ 0 → D.solve (D.xcoord X) = X ∨ D.solve (D.xcoord X) = -X)
    (hylt : ∀ X : P, X ≠ 0 → D.ycoord X < D.p)
    (hyneg : ∀ X : P, X ≠ 0 → D.ycoord (-X) = (D.p - D.ycoord X) % D.p)
    (hy0 : ∀ X : P, X ≠ 0 → D.ycoord X = 0 → X + X = 0)
    (hpodd : D.p % 2 = 1)
    {d e k r s v : ℕ} (hk0 : 1 ≤ k) (hkn : k < D.n)
    (hsig : signRecoverable D d e k = some (r, s, v)) :
    recoverFast D r s v e = d • D.G := by
  unfold signRecoverable at hsig
  cases hstep : signStep D d e k with
  | none =>
    rw [hstep] at hsig
    simp at hsig
  | some rsR =>
    obtain ⟨r0, s0, R⟩ := rsR
    rw [hstep] at hsig
    simp only [Option.map_some', Option.some.injEq] at hsig
    unfold _033399_ at hsig
    simp only [Prod.mk.injEq] at hsig
    obtain ⟨hr0eq, hseq, hveq⟩ := hsig
    subst hr0eq
    obtain ⟨hR, hR0, hr, hrne0, hs0def, hs0ne⟩ := signStep_eq hstep
    haveI := Fact.mk hprime
    have hn0 : 0 < D.n := hprime.pos
    obtain ⟨hrn, hs0n⟩ := signStep_lt hn0 hstep
    have hkz : (k : ZMod D.n) ≠ 0 := natCast_ne_zero_of (by omega) hkn
    have hrz : (r0 : ZMod D.n) ≠ 0 := natCast_ne_zero_of hrne0 hrn
    have hscast := signStep_s_cast hprime hstep hkz
    have hks : (s0 : ZMod D.n) * (k : ZMod D.n) =
        (e : ZMod D.n) + (r0 : ZMod D.n) * (d : ZMod D.n) := by
      rw [hscast, mul_assoc, inv_mul_cancel₀ hkz, mul_one]
    have hrr : (r0 : ZMod D.n) * (r0 : ZMod D.n)⁻¹ = 1 := mul_inv_cancel₀ hrz
    -- the ephemeral point has a nonzero y-coordinate
    have hRy0 : D.ycoord R ≠ 0 := by
      intro h0
      have h2R : R + R = 0 := hy0 R hR0 h0
      have h2k : (k + k) • D.G = 0 := by rw [add_nsmul, ← hR, h2R]
      have hdvd2 : D.n ∣ 2 * k := by
        have := order_dvd hn0 hG hGord h2k
        rwa [two_mul]
      rcases (Nat.Prime.dvd_mul hprime).mp hdvd2 with hcon | hcon
      · have := Nat.le_of_dvd (by norm_num) hcon
        omega
      · have := Nat.le_of_dvd (by omega) hcon
        omega
    have hRylt : D.ycoord R < D.p := hylt R hR0
    have hynegR : D.ycoord (-R) = D.p - D.ycoord R := by
      rw [hyneg R hR0, Nat.mod_eq_of_lt (by omega)]
    -- the discriminant in normal form
    have ha : D.ycoord R &&& 1 ≤ 1 := by
      rw [Nat.and_one_is_mod]
      omega
    have hv0 : (0 ||| (D.ycoord R &&& 1)) ||| ((D.xcoord R / D.n) <<< 1) =
        2 * (D.xcoord R / D.n) + (D.ycoord R &&& 1) := by
      rw [Nat.zero_or]
      exact lor_shiftLeft_one _ ha
    have hRxmod : r0 + D.xcoord R / D.n * D.n = D.xcoord R := by
      rw [hr]
      exact Nat.mod_add_div' (D.xcoord R) D.n
    have hRxcast : ((D.xcoord R : ℕ) : ZMod D.n) = (r0 : ZMod D.n) := by
      rw [← castMod D.n (D.xcoord R), ← hr]
    have hparity : (D.p - D.ycoord R) &&& 1 = 1 - (D.ycoord R &&& 1) := by
      rw [Nat.and_one_is_mod, Nat.and_one_is_mod]
      omega
    by_cases hflip : D.n >>> 1 < s0
    · -- the low-s normalization flipped: `s = n - s0`, bit 0 of `v` flipped
      have hlow : lowSNorm D.n s0
          ((0 ||| (D.ycoord R &&& 1)) ||| ((D.xcoord R / D.n) <<< 1)) =
          (D.n - s0, ((0 ||| (D.ycoord R &&& 1)) ||| ((D.xcoord R / D.n) <<< 1)) ^^^ 1) := by
        unfold lowSNorm
        rw [if_pos hflip]
      rw [hlow] at hseq hveq
      simp only at hseq hveq
      have hvs : v >>> 1 = D.xcoord R / D.n := by
        rw [← hveq, hv0, xor_one_of_le _ ha]
        exact shiftRight_one_of_le _ (by omega)
      have hva : v &&& 1 = 1 - (D.ycoord R &&& 1) := by
        rw [← hveq, hv0, xor_one_of_le _ ha]
        exact and_one_of_le _ (by omega)
      have hfinal : ∀ x : ℕ, (x : ZMod D.n) = (r0 : ZMod D.n) →
          Fmul D.n (Finverse D.n (e % D.n)) (Freciprocal D.n x) • D.G +
            Fmul D.n s (Freciprocal D.n x) • (-R) = d • D.G := by
        intro x hx
        have hxz : (x : ZMod D.n) ≠ 0 := by rw [hx]; exact hrz
        have hnegR : -R = Finverse D.n (k % D.n) • D.G := by
          rw [hR]
          exact (finverse_nsmul hprime.ne_zero hG k).symm
        rw [hnegR, ← mul_nsmul, ← add_nsmul]
        apply nsmul_congr D.G hG
        push_cast
        simp only [cast_Fmul, cast_Finverse hprime.ne_zero, castMod,
          cast_Freciprocal hprime x hxz, hx]
        rw [← hseq, Nat.cast_sub (le_of_lt hs0n), ZMod.natCast_self]
        linear_combination (r0 : ZMod D.n)⁻¹ * hks + (d : ZMod D.n) * hrr
      simp only [recoverFast]
      rw [hvs, hRxmod]
      rcases hsolve R hR0 with hcase | hcase
      · rw [hcase, if_pos (by
          rw [hva]
          exact (xor_ne_zero_iff (by omega) ha).mpr (by omega))]
        exact hfinal (D.xcoord R) hRxcast
      · rw [hcase, if_neg (by
          simp only [ne_eq, not_not]
          rw [hva, hynegR, hparity]
          exact Nat.xor_self _)]
        exact hfinal (D.xcoord R) hRxcast
    · -- no flip: `s = s0`, `v` unchanged
      have hlow : lowSNorm D.n s0
          ((0 ||| (D.ycoord R &&& 1)) ||| ((D.xcoord R / D.n) <<< 1)) =
          (s0, (0 ||| (D.ycoord R &&& 1)) ||| ((D.xcoord R / D.n) <<< 1)) := by
        unfold lowSNorm
        rw [if_neg hflip]
      rw [hlow] at hseq hveq
      simp only at hseq hveq
      have hvs : v >>> 1 = D.xcoord R / D.n := by
        rw [← hveq, hv0]
        exact shiftRight_one_of_le _ ha
      have hva : v &&& 1 = D.ycoord R &&& 1 := by
        rw [← hveq, hv0]
        exact and_one_of_le _ ha
      have hfinal : ∀ x : ℕ, (x : ZMod D.n) = (r0 : ZMod D.n) →
          Fmul D.n (Finverse D.n (e % D.n)) (Freciprocal D.n x) • D.G +
            Fmul D.n s (Freciprocal D.n x) • R = d • D.G := by
        intro x hx
        have hxz : (x : ZMod D.n) ≠ 0 := by rw [hx]; exact hrz
        rw [hR, ← mul_nsmul, ← add_nsmul]
        apply nsmul_congr D.G hG
        push_cast
        simp only [cast_Fmul, cast_Finverse hprime.ne_zero, castMod,
          cast_Freciprocal hprime x hxz, hx]
        rw [← hseq]
        linear_combination (r0 : ZMod D.n)⁻¹ * hks + (d : ZMod D.n) * hrr
      simp only [recoverFast]
      rw [hvs, hRxmod]
      rcases hsolve R hR0 with hcase | hcase
      · rw [hcase, if_neg (by
          simp only [ne_eq, not_not]
          rw [hva]
          exact Nat.xor_self _)]
        exact hfinal (D.xcoord R) hRxcast
      · rw [hcase, if_pos (by
          rw [hva, hynegR, hparity]
          exact (xor_ne_zero_iff ha (by omega)).mpr (by omega)), neg_neg]
        exact hfinal (D.xcoord R) hRxcast

/-- Witness for C3 at the toy domain: `d = 2`, `e = 4`, `k = 3`
(producing the recoverable signature `{r = 2, s = 1, v = 0}`). -/
theorem C3_witness :
    signRecoverable toyD 2 4 3 = some (2, 1, 0) ∧
      recoverFast toyD 2 1 0 4 = (2 : ℕ) • toyD.G := by
  have hsg : signRecoverable toyD 2 4 3 = some (2, 1, 0) := by decide
  exact ⟨hsg, C3_fast_recovery_exact toyD (by show Nat.Prime 5; norm_num) (by decide)
    (by decide) (fun m h1 h2 => by
      have h2' : m < 5 := h2
      interval_cases m <;> decide)
    (by decide) (by decide) (by decide) (by decide) (by decide)
    (by decide) (by decide) hsg⟩

end Ecdsa
